import Mathlib

/-!
Verification development for the pyaudiomod time-scale-modification core
(`src/pyaudiomod/time_stretching.py`, `src/pyaudiomod/utils.py`, and the
earlier snapshot `src/time_stretching.py` / `src/sigproc.py`).

The Python/numpy code is shallowly embedded: signals and frames are lists
over a linear ordered field (instantiated at `ℚ` for concrete evaluation and
at `ℝ` where the Hann window's cosine values matter), Python integers are
`ℤ`/`ℕ`, and fallible numpy operations (negative `np.zeros` sizes,
`sliding_window_view` on too-short inputs, empty `np.correlate` inputs,
zero slice steps, broadcast mismatches) return `Option`.
-/

namespace PyAudioMod

/-- Python's `int()` applied to an exact rational: truncation toward zero. -/
def pyInt (q : ℚ) : ℤ := if q < 0 then -⌊-q⌋ else ⌊q⌋

/-- Python slice `l[a:b]` (step 1): negative indices count from the end,
    out-of-range bounds are clamped, and an empty list results when `b ≤ a`. -/
def pySlice {α : Type} (l : List α) (a b : ℤ) : List α :=
  let n : ℤ := l.length
  let lo : ℤ := if a < 0 then max (n + a) 0 else min a n
  let hi : ℤ := if b < 0 then max (n + b) 0 else min b n
  (l.drop lo.toNat).take (hi - lo).toNat

/-- Helper for `npArgmax`: fold over the remaining list keeping the first
    index attaining the maximum (a strictly greater element replaces it). -/
def npArgmaxAux {α : Type} [LinearOrder α] : List α → ℕ → ℕ → α → ℕ
  | [], _, best_idx, _ => best_idx
  | x :: xs, i, best_idx, best_val =>
    if best_val < x then npArgmaxAux xs (i + 1) i x
    else npArgmaxAux xs (i + 1) best_idx best_val

/-- Embedding of `np.argmax` on a 1-D array: index of the first occurrence of
    the maximum (`np.argmax` on an empty array raises; callers guard that). -/
def npArgmax {α : Type} [LinearOrder α] : List α → ℕ
  | [] => 0
  | x :: xs => npArgmaxAux xs 1 0 x

/-- Embedding of `np.correlate(a, v)` in its default `valid` mode for real
    inputs.  With `N = len(a)`, `M = len(v)` and `M ≥ N`, output entry `j`
    (for `j ∈ [0, M − N]`) is `Σ_{n < N} a[n]·v[n + (M − N − j)]`; with
    `N ≥ M` output entry `k ∈ [0, N − M]` is `Σ_{n < M} a[n + k]·v[n]`.
    An empty input raises a `ValueError`, modelled as `none`. -/
def npCorrelate {α : Type} [LinearOrderedRing α] (a v : List α) : Option (List α) :=
  if a.isEmpty ∨ v.isEmpty then none
  else if v.length ≤ a.length then
    some ((List.range (a.length - v.length + 1)).map fun k =>
      ((List.range v.length).map fun n => a.getD (n + k) 0 * v.getD n 0).sum)
  else
    some ((List.range (v.length - a.length + 1)).map fun j =>
      ((List.range a.length).map fun n =>
        a.getD n 0 * v.getD (n + (v.length - a.length - j)) 0).sum)

/-- A 2-D numpy array of rows: `data` are the rows, `cols` is `shape[1]`.
    `np.empty((0, N))` is `⟨[], N⟩`; a nonempty rectangular row list built by
    `np.array` carries its row length as `cols` (see `mkArr`). -/
structure NDArray2 (α : Type) where
  data : List (List α)
  cols : ℕ
deriving DecidableEq

/-- Embedding of `np.array(list_of_rows)` for a rectangular row list:
    `shape[1]` is the common row length (`0` when there are no rows). -/
def mkArr {α : Type} (rows : List (List α)) : NDArray2 α :=
  ⟨rows, (rows.headD []).length⟩

/-- Embedding of the numpy slice-accumulate `signal[start:start+len(frame)] += frame`:
    positions `start ≤ j < start + len(frame)` of `buf` receive `frame[j − start]`. -/
def addFrameAt {α : Type} [AddCommMonoid α] (buf frame : List α) (start : ℕ) : List α :=
  List.zipWith
    (fun j x => if start ≤ j ∧ j < start + frame.length then x + frame.getD (j - start) 0 else x)
    (List.range buf.length) buf

/-- Embedding of `reconstruct_from_frames(frames, hopsize)` (identical in
    `OLA`, `WSOLA` and `src/sigproc.py`): allocate
    `np.zeros((num_frames − 1)·hopsize + frame_size)` — `none` models the
    `np.zeros` error when that Python int is negative — then accumulate frame
    `k` at offset `k·hopsize`. -/
def reconstruct_from_frames {α : Type} [AddCommMonoid α] (frames : NDArray2 α)
    (hopsize : ℕ) : Option (List α) :=
  let num_frames := frames.data.length
  let frame_size := frames.cols
  let buf_len : ℤ := ((num_frames : ℤ) - 1) * hopsize + frame_size
  if buf_len < 0 then none
  else some ((List.range num_frames).foldl
    (fun buf k => addFrameAt buf (frames.data.getD k []) (k * hopsize))
    (List.replicate buf_len.toNat 0))

/-- Embedding of the zero-padding phase of `OLA.split_into_frames`
    (`time_stretching.py` lines 62-78): when
    `(signal_length − frame_size) % hopsize ≠ 0`, a branch on
    `hopsize < / > / == frame_size` computes `residual` (split out below as
    `OLA.residual`) and `pad_signal` appends `frame_size − residual` zeros;
    `none` models the `np.zeros` error when that count is negative.  Python
    `%` and `//` on possibly negative ints are `Int.emod` and `Int.ediv`
    (the divisor `hopsize` is positive in every claim). -/
def OLA.residual (signal_length : ℤ) (frame_size hopsize : ℕ) : ℤ :=
  if hopsize < frame_size then
    signal_length - hopsize * ((signal_length - frame_size).ediv hopsize + 1)
  else if frame_size < hopsize then
    signal_length.emod hopsize
  else
    (frame_size : ℤ) - signal_length.emod hopsize

/-- The zero-padding phase proper: append `frame_size − residual` zeros when
    the tail is not a whole number of hops. -/
def OLA.pad_signal {α : Type} [Zero α] (signal : List α)
    (frame_size hopsize : ℕ) : Option (List α) :=
  let signal_length : ℤ := signal.length
  let signal_length_without_last_frame : ℤ := signal_length - frame_size
  if signal_length_without_last_frame.emod hopsize ≠ 0 then
    let pad : ℤ := (frame_size : ℤ) - OLA.residual signal_length frame_size hopsize
    if pad < 0 then none
    else some (signal ++ List.replicate pad.toNat 0)
  else some signal

/-- Embedding of `OLA.split_into_frames(signal, frame_size, hopsize)`:
    zero-pad (see `OLA.pad_signal`), then
    `sliding_window_view(signal, frame_size)[::hopsize]`, i.e. the
    length-`frame_size` windows at offsets `0, hopsize, 2·hopsize, …` not
    exceeding `len(padded) − frame_size`.  `none` models the numpy errors for
    a zero slice step, a non-positive window shape, or a window longer than
    the padded signal. -/
def OLA.split_into_frames {α : Type} [Zero α] (signal : List α)
    (frame_size hopsize : ℕ) : Option (List (List α)) :=
  if hopsize = 0 then none
  else
    match OLA.pad_signal signal frame_size hopsize with
    | none => none
    | some padded =>
      if frame_size = 0 ∨ padded.length < frame_size then none
      else some ((List.range ((padded.length - frame_size) / hopsize + 1)).map
        fun k => (padded.drop (k * hopsize)).take frame_size)

/-- Embedding of the `TSM` engine configuration resolved by `TSM.__init__`
    (`time_stretching.py` lines 15-27).  `speed_factor` is kept exact as `ℚ`.
    `analysis_hopsize` is a Python int and may be negative when explicitly
    overridden, hence `ℤ`. -/
structure TSM where
  frame_size : ℕ
  speed_factor : ℚ
  synthesis_hopsize : ℕ
  analysis_hopsize : ℤ
deriving DecidableEq

/-- Embedding of `TSM.__init__`: default `synthesis_hopsize` is
    `frame_size // 4`; a `synthesis_hopsize` outside `[10, frame_size]`
    raises `ValueError` (modelled as `none`); default `analysis_hopsize` is
    `int(synthesis_hopsize * speed_factor)` (truncation toward zero). -/
def TSM.init (frame_size : ℕ) (speed_factor : ℚ)
    (synthesis_hopsize : Option ℕ) (analysis_hopsize : Option ℤ) : Option TSM :=
  let sh : ℕ := synthesis_hopsize.getD (frame_size / 4)
  if 10 ≤ sh ∧ sh ≤ frame_size then
    some ⟨frame_size, speed_factor, sh,
      analysis_hopsize.getD (pyInt ((sh : ℚ) * speed_factor))⟩
  else none

/-- Embedding of `utils.FrameShiftBoundaries` (defaults `min_shift = -10`,
    `max_shift = 10`). -/
structure FrameShiftBoundaries where
  min_shift : ℤ := -10
  max_shift : ℤ := 10
deriving DecidableEq

/-- The similarity search of `WSOLA.split_into_frames`, line 189:
    `np.argmax(np.correlate(natural_progression, extended_frame_region))`.
    This is the `find_best_shift` operation of the specification (§4.6). -/
def WSOLA.find_best_shift {α : Type} [LinearOrderedRing α]
    (natural_progression extended_frame_region : List α) : Option ℕ :=
  (npCorrelate natural_progression extended_frame_region).map npArgmax

/-- Loop state of `WSOLA.split_into_frames`: the frames collected so far, the
    `end_of_signal` flag, and the two running start indices. -/
structure WSOLASplitState (α : Type) where
  frames : List (List α)
  end_of_signal : Bool
  adjusted_analysis_frame_start_idx : ℤ
  extended_frame_region_start_idx : ℤ

/-- One iteration of the `while not end_of_signal` body of
    `WSOLA.split_into_frames` (`time_stretching.py` lines 183-198): slice the
    adjusted frame and append it, slice `natural_progression` and
    `extended_frame_region`, take the correlation argmax, set
    `end_of_signal` to the source's literal test `signal_length < 1000000`,
    and update both start indices.  `none` models the `np.correlate` /
    `np.argmax` errors on empty slices. -/
def WSOLA.split_body {α : Type} [LinearOrderedRing α] (signal : List α)
    (frame_size synthesis_hopsize analysis_hopsize : ℕ)
    (frame_shift_boundaries : FrameShiftBoundaries)
    (st : WSOLASplitState α) : Option (WSOLASplitState α) :=
  let start := st.adjusted_analysis_frame_start_idx
  let adjusted_analysis_frame := pySlice signal start (start + frame_size)
  let frames := st.frames ++ [adjusted_analysis_frame]
  let natural_progression :=
    pySlice signal (start + synthesis_hopsize) (start + synthesis_hopsize + frame_size)
  let extended_frame_region :=
    pySlice signal (st.extended_frame_region_start_idx + frame_shift_boundaries.min_shift)
      (st.extended_frame_region_start_idx + frame_size + frame_shift_boundaries.max_shift)
  match WSOLA.find_best_shift natural_progression extended_frame_region with
  | none => none
  | some optimal_shift_idx =>
    some ⟨frames, decide (signal.length < 1000000),
      (frames.length : ℤ) * analysis_hopsize + optimal_shift_idx,
      ((frames.length : ℤ) + 1) * analysis_hopsize⟩

/-- The `while not end_of_signal` loop of `WSOLA.split_into_frames`, made
    total with explicit fuel: `none` means the given number of iterations did
    not reach the exit condition (the source loop would still be running). -/
def WSOLA.split_loop {α : Type} [LinearOrderedRing α] (signal : List α)
    (frame_size synthesis_hopsize analysis_hopsize : ℕ)
    (frame_shift_boundaries : FrameShiftBoundaries) :
    ℕ → WSOLASplitState α → Option (List (List α))
  | 0, _ => none
  | fuel + 1, st =>
    if st.end_of_signal then some st.frames
    else
      match WSOLA.split_body signal frame_size synthesis_hopsize analysis_hopsize
          frame_shift_boundaries st with
      | none => none
      | some st2 =>
        WSOLA.split_loop signal frame_size synthesis_hopsize analysis_hopsize
          frame_shift_boundaries fuel st2

/-- Embedding of `WSOLA.split_into_frames` (`time_stretching.py` lines
    159-200, identical to `src/sigproc.py::split_into_frames`): run the loop
    from `frames = []`, `end_of_signal = False`,
    `adjusted_analysis_frame_start_idx = 0`,
    `extended_frame_region_start_idx = analysis_hopsize`. -/
def WSOLA.split_into_frames {α : Type} [LinearOrderedRing α] (fuel : ℕ)
    (signal : List α) (frame_size synthesis_hopsize analysis_hopsize : ℕ)
    (frame_shift_boundaries : FrameShiftBoundaries) : Option (List (List α)) :=
  WSOLA.split_loop signal frame_size synthesis_hopsize analysis_hopsize
    frame_shift_boundaries fuel ⟨[], false, 0, (analysis_hopsize : ℤ)⟩

/-- Embedding of `utils.hann_window(window_length, symmetric_flag)`:
    coefficient `i` is `0.5·(1 − cos(2π·i/denominator))` with denominator
    `window_length − 1` (symmetric) or `window_length` (periodic). -/
noncomputable def hann_window (window_length : ℕ) (symmetric_flag : Bool) : List ℝ :=
  let denominator : ℝ :=
    if symmetric_flag then (window_length : ℝ) - 1 else (window_length : ℝ)
  (List.range window_length).map fun (i : ℕ) =>
    0.5 * (1 - Real.cos ((2 * Real.pi * (i : ℝ)) / denominator))

/-- Embedding of the `OLA` engine configuration: the `TSM` fields plus the
    synthesis and analysis windows (both default to the periodic Hann window
    of length `frame_size`; `analysis_window` is never used by `run`). -/
structure OLA extends TSM where
  synthesis_window : List ℝ
  analysis_window : List ℝ

/-- Embedding of `np.where(overlapping_windows == 0, 1.0, overlapping_windows)`:
    replace zero entries by one. -/
def np_where_zero_one {α : Type} [Zero α] [One α] [DecidableEq α] (l : List α) : List α :=
  l.map fun g => if g = 0 then (1 : α) else g

/-- The overlapped-window gain used by `OLA.run` (lines 122-130): the scalar
    `1.0` broadcast over the output when `synthesis_hopsize == frame_size // 2`
    (COLA), otherwise the overlap-add of the synthesis window tiled once per
    analysis frame (`np.tile` + `reconstruct_from_frames`). -/
noncomputable def OLA.overlapping_windows (o : OLA) (num_frames out_len : ℕ) :
    Option (List ℝ) :=
  if o.synthesis_hopsize = o.frame_size / 2 then
    some (List.replicate out_len 1)
  else
    reconstruct_from_frames (mkArr (List.replicate num_frames o.synthesis_window))
      o.synthesis_hopsize

/-- Embedding of `OLA.run(signal)` (`time_stretching.py` lines 106-139):
    split into analysis frames at `analysis_hopsize`, window them, overlap-add
    at `synthesis_hopsize`, then divide element-wise by the zero-replaced
    overlapped-window gain.  `none` models the numpy errors on the way
    (including broadcast mismatches between frame rows, the window, and the
    gain signal; a non-positive `analysis_hopsize`, whose negative-stride
    slicing the claims never exercise, is also mapped to the error case). -/
noncomputable def OLA.run (o : OLA) (signal : List ℝ) : Option (List ℝ) :=
  if o.analysis_hopsize ≤ 0 then none
  else
    match OLA.split_into_frames signal o.frame_size o.analysis_hopsize.toNat with
    | none => none
    | some analysis_frames =>
      if ¬ (analysis_frames.all fun f => f.length = o.synthesis_window.length) then none
      else
        let synthesis_frames :=
          analysis_frames.map fun f => List.zipWith (· * ·) f o.synthesis_window
        match reconstruct_from_frames (mkArr synthesis_frames) o.synthesis_hopsize with
        | none => none
        | some output_signal =>
          match OLA.overlapping_windows o analysis_frames.length output_signal.length with
          | none => none
          | some gain =>
            let gain2 := np_where_zero_one gain
            if gain2.length = output_signal.length then
              some (List.zipWith (· / ·) output_signal gain2)
            else none

/-! ### Helper lemmas about the WSOLA loop -/

lemma WSOLA.split_body_end_flag {α : Type} [LinearOrderedRing α] (signal : List α)
    (frame_size synthesis_hopsize analysis_hopsize : ℕ) (b : FrameShiftBoundaries)
    (st st2 : WSOLASplitState α)
    (h : WSOLA.split_body signal frame_size synthesis_hopsize analysis_hopsize b st = some st2) :
    st2.end_of_signal = decide (signal.length < 1000000) := by
  simp only [WSOLA.split_body] at h
  split at h
  · exact absurd h (by simp)
  · injection h with h
    subst h
    rfl

lemma WSOLA.split_loop_stuck {α : Type} [LinearOrderedRing α] (signal : List α)
    (frame_size synthesis_hopsize analysis_hopsize : ℕ) (b : FrameShiftBoundaries)
    (hlong : 1000000 ≤ signal.length) :
    ∀ (fuel : ℕ) (st : WSOLASplitState α), st.end_of_signal = false →
      WSOLA.split_loop signal frame_size synthesis_hopsize analysis_hopsize b fuel st = none := by
  intro fuel
  induction fuel with
  | zero => intro st _; rfl
  | succ n ih =>
    intro st hst
    rw [WSOLA.split_loop, hst]
    simp only [Bool.false_eq_true, if_false]
    cases hb : WSOLA.split_body signal frame_size synthesis_hopsize analysis_hopsize b st with
    | none => rfl
    | some st2 =>
      apply ih
      rw [WSOLA.split_body_end_flag signal frame_size synthesis_hopsize analysis_hopsize b st st2 hb]
      simp only [decide_eq_false_iff_not, not_lt]
      exact hlong

/-! ### Claim theorems (part 1) -/

/-- Claim C1 (code bug).  The WSOLA frame-splitting loop does NOT exit when
    the remaining signal cannot supply a full frame: its exit test is the
    constant threshold `signal_length < 1000000`.  First conjunct: on a
    20-sample signal with `frame_size = 4`, `synthesis_hopsize =
    analysis_hopsize = 2`, the loop stops after exactly one frame even though
    the next adjusted start (`1·analysis_hopsize + shift = 2`, shift `0`)
    would still leave a full frame (`2 + 4 ≤ 20`).  Second conjunct: on any
    signal of length `1000000` the flag is never set, so no amount of fuel
    makes the loop return — the source loops forever. -/
theorem wsola_split_termination_bug :
    (WSOLA.split_into_frames 5 (List.replicate 20 (0 : ℤ)) 4 2 2 ⟨-1, 1⟩ =
        some [List.replicate 4 0]
      ∧ 1 * 2 + 0 + 4 ≤ (List.replicate 20 (0 : ℤ)).length)
    ∧ ∀ fuel : ℕ,
        WSOLA.split_into_frames fuel (List.replicate 1000000 (0 : ℤ)) 256 64 64 ⟨-10, 10⟩ =
          none := by
  refine ⟨⟨by decide, by decide⟩, ?_⟩
  intro fuel
  unfold WSOLA.split_into_frames
  apply WSOLA.split_loop_stuck
  · rw [List.length_replicate]
  · rfl

/-- Claim C2 (code bug).  For `hopsize == frame_size` the padding amount is
    computed as `frame_size − (frame_size − len % hopsize) = len % hopsize`,
    which does not make `(len(padded) − frame_size)` divisible by `hopsize`:
    on a 5-sample signal with `frame_size = hopsize = 4` the code pads one
    zero (padded length 6, and `(6 − 4) % 4 = 2 ≠ 0`), so only the frame at
    offset 0 is produced and the last real sample (the `5`) is dropped —
    contradicting the code's own comment that it pads "until it is" a
    multiple of `hopsize`. -/
theorem ola_split_padding_divisibility_bug :
    OLA.pad_signal ([1, 2, 3, 4, 5] : List ℤ) 4 4 = some [1, 2, 3, 4, 5, 0]
    ∧ ¬ (([1, 2, 3, 4, 5, 0] : List ℤ).length - 4) % 4 = 0
    ∧ OLA.split_into_frames ([1, 2, 3, 4, 5] : List ℤ) 4 4 = some [[1, 2, 3, 4]] := by
  refine ⟨by decide, by decide, by decide⟩

/-- Claim C3 (code bug).  The similarity search returns the raw
    `np.argmax` index into the correlation array, which ranges over
    `[0, max_shift − min_shift]`; it never adds `min_shift`, so the shift can
    exceed `max_shift` (and can never be negative), contradicting the
    docstring's promise of shifts within `frame_shift_boundaries`.  With the
    default boundaries `(−10, 10)`, a length-1 `natural_progression` and a
    length-21 `extended_frame_region` whose single spike sits at index 5, the
    returned shift is 15 ∉ [−10, 10]. -/
theorem find_best_shift_out_of_bounds :
    WSOLA.find_best_shift ([1] : List ℤ)
        [0, 0, 0, 0, 0, 1, 0, 0, 0, 0, 0, 0, 0, 0, 0, 0, 0, 0, 0, 0, 0] = some 15
    ∧ ([0, 0, 0, 0, 0, 1, 0, 0, 0, 0, 0, 0, 0, 0, 0, 0, 0, 0, 0, 0, 0] : List ℤ).length =
        ([1] : List ℤ).length + ((10 : ℤ) - (-10)).toNat
    ∧ ¬ ((-10 : ℤ) ≤ 15 ∧ (15 : ℤ) ≤ 10) := by
  refine ⟨by decide, by decide, by decide⟩

/-- Claim C7 counterexample.  The plain segmenter performs no parameter
    validation: called with `frame_size = 6` on an unpadded signal of length
    4 (so `frame_size > len(signal)`) and `hopsize = 4`, it does not fail —
    the padding branch appends two zeros and one frame is returned. -/
theorem split_no_validation_cex :
    ([1, 2, 3, 4] : List ℤ).length < 6
    ∧ OLA.split_into_frames ([1, 2, 3, 4] : List ℤ) 6 4 = some [[1, 2, 3, 4, 0, 0]] := by
  refine ⟨by decide, by decide⟩

/-- Claim C7 as amended: no `InvalidFrameParameters` check exists anywhere in
    `split_into_frames`; a call with `frame_size = 6 > 4 = len(signal)` and
    `hopsize = 4` succeeds by zero-padding for every choice of sample values,
    returning the single frame `signal ++ [0, 0]`. -/
theorem split_no_validation (a b c d : ℝ) :
    OLA.split_into_frames [a, b, c, d] 6 4 = some [[a, b, c, d, 0, 0]] := by
  have h2 : ((2 : ℤ)).toNat = 2 := rfl
  unfold OLA.split_into_frames OLA.pad_signal OLA.residual
  norm_num [h2, List.replicate_succ, List.range_succ]

/-- Claim C8 counterexample.  `reconstruct_from_frames` invoked with the
    empty frame set `np.empty((0, 4))` and `hopsize = 2` does not fail: it
    allocates `np.zeros((0 − 1)·2 + 4) = np.zeros(2)`, the accumulation loop
    runs zero times, and the zero signal `[0, 0]` is returned. -/
theorem reconstruct_empty_returns_signal :
    reconstruct_from_frames (⟨[], 4⟩ : NDArray2 ℤ) 2 = some [0, 0] := by decide

/-- Claim C8 as amended: there is no `EmptyFrameSet` error; reconstruction of
    a `(0, frame_size)`-shaped empty frame set with `0 < hopsize ≤ frame_size`
    returns the all-zero signal of length `frame_size − hopsize` (the code
    only errors incidentally, via a negative `np.zeros` size, when
    `hopsize > frame_size`). -/
theorem reconstruct_empty_spec (cols hopsize : ℕ) (hpos : 0 < hopsize)
    (hle : hopsize ≤ cols) :
    reconstruct_from_frames (⟨[], cols⟩ : NDArray2 ℝ) hopsize =
      some (List.replicate (cols - hopsize) 0) := by
  unfold reconstruct_from_frames
  simp only [List.length_nil, Nat.cast_zero, zero_sub, List.range_zero, List.foldl_nil]
  rw [if_neg (by omega)]
  congr 2
  omega

/-- Claim C8 amended witness at `cols = 4`, `hopsize = 2`. -/
theorem reconstruct_empty_spec_witness :
    reconstruct_from_frames (⟨[], 4⟩ : NDArray2 ℝ) 2 = some (List.replicate (4 - 2) 0) :=
  reconstruct_empty_spec 4 2 (by decide) (by decide)

/-- Claim C10.  Every engine variant resolves its configuration through
    `TSM.__init__`; when no explicit `synthesis_hopsize` is passed, the one
    stored (and used throughout `run`) is `frame_size // 4`, which is 64 for
    the default `frame_size` of 256. -/
theorem default_synthesis_hopsize (frame_size : ℕ) (speed_factor : ℚ)
    (analysis_hopsize : Option ℤ) (t : TSM)
    (h : TSM.init frame_size speed_factor none analysis_hopsize = some t) :
    t.synthesis_hopsize = frame_size / 4
    ∧ (frame_size = 256 → t.synthesis_hopsize = 64) := by
  simp only [TSM.init, Option.getD_none] at h
  split at h
  · injection h with h
    subst h
    refine ⟨rfl, ?_⟩
    rintro rfl
    rfl
  · exact absurd h (by simp)

/-- Claim C10 witness: the default engine (`frame_size = 256`, speed 1). -/
theorem default_synthesis_hopsize_witness :
    (⟨256, 1, 64, 64⟩ : TSM).synthesis_hopsize = 256 / 4
    ∧ ((256 : ℕ) = 256 → (⟨256, 1, 64, 64⟩ : TSM).synthesis_hopsize = 64) :=
  default_synthesis_hopsize 256 1 none ⟨256, 1, 64, 64⟩ (by simp [TSM.init, pyInt])

/-- Claim C6 counterexample.  The default `analysis_hopsize` is computed with
    Python's `int()`, which truncates toward zero, not with `round`: for
    `frame_size = 256` (default `synthesis_hopsize` 64) and
    `speed_factor = 57/640`, the product is `5.7`; the engine stores 5 while
    nearest-integer rounding gives 6. -/
theorem analysis_hopsize_not_round :
    TSM.init 256 (57 / 640) none none = some ⟨256, 57 / 640, 64, 5⟩
    ∧ round ((64 : ℚ) * (57 / 640)) = (6 : ℤ)
    ∧ (5 : ℤ) ≠ 6 := by
  refine ⟨?_, by norm_num [round_eq], by decide⟩
  simp [TSM.init, pyInt]
  norm_num [Int.floor_eq_iff]

/-- Claim C6 as amended: for an engine constructed without an explicit
    `analysis_hopsize` and with a nonnegative `speed_factor`, the stored
    `analysis_hopsize` is `⌊synthesis_hopsize × speed_factor⌋` (truncation
    toward zero, which on nonnegative products is the floor). -/
theorem analysis_hopsize_trunc (frame_size : ℕ) (speed_factor : ℚ)
    (synthesis_hopsize : Option ℕ) (t : TSM) (hsf : 0 ≤ speed_factor)
    (h : TSM.init frame_size speed_factor synthesis_hopsize none = some t) :
    t.analysis_hopsize = ⌊(t.synthesis_hopsize : ℚ) * speed_factor⌋ := by
  simp only [TSM.init, Option.getD_none] at h
  split at h
  · injection h with h
    subst h
    unfold pyInt
    rw [if_neg]
    exact not_lt.mpr (mul_nonneg (by positivity) hsf)
  · exact absurd h (by simp)

/-- Claim C6 amended witness: default engine at speed 1. -/
theorem analysis_hopsize_trunc_witness :
    (⟨256, 1, 64, 64⟩ : TSM).analysis_hopsize =
      ⌊((⟨256, 1, 64, 64⟩ : TSM).synthesis_hopsize : ℚ) * 1⌋ :=
  analysis_hopsize_trunc 256 1 none ⟨256, 1, 64, 64⟩ (by norm_num)
    (by simp [TSM.init, pyInt])

/-! ### Helper lemmas about `addFrameAt` and the reconstruction loop -/

lemma addFrameAt_length {α : Type} [AddCommMonoid α] (buf frame : List α) (start : ℕ) :
    (addFrameAt buf frame start).length = buf.length := by
  unfold addFrameAt
  rw [List.length_zipWith, List.length_range, min_self]

lemma addFrameAt_getD {α : Type} [AddCommMonoid α] (buf frame : List α) (start j : ℕ)
    (hj : j < buf.length) :
    (addFrameAt buf frame start).getD j 0 =
      buf.getD j 0 +
        if start ≤ j ∧ j < start + frame.length then frame.getD (j - start) 0 else 0 := by
  have hz : j < (addFrameAt buf frame start).length := by
    rw [addFrameAt_length]; exact hj
  unfold addFrameAt at hz ⊢
  rw [List.getD_eq_getElem?_getD, List.getElem?_eq_getElem hz, Option.getD_some,
    List.getElem_zipWith, List.getElem_range,
    List.getD_eq_getElem?_getD buf, List.getElem?_eq_getElem hj, Option.getD_some]
  split
  · rfl
  · rw [add_zero]

/-- The value of the accumulation loop of `reconstruct_from_frames` at
    position `j` after processing the first `n` frames: the initial value plus
    the sum of the contributions of the frames whose spans cover `j`. -/
lemma reconstruct_foldl_length {α : Type} [AddCommMonoid α] (rows : List (List α))
    (hop : ℕ) (init : List α) (n : ℕ) :
    ((List.range n).foldl (fun buf k => addFrameAt buf (rows.getD k []) (k * hop))
      init).length = init.length := by
  induction n with
  | zero => rfl
  | succ m ih =>
    rw [List.range_succ, List.foldl_append, List.foldl_cons, List.foldl_nil,
      addFrameAt_length, ih]

lemma reconstruct_foldl_getD {α : Type} [AddCommMonoid α] (rows : List (List α))
    (hop : ℕ) (init : List α) (n j : ℕ) (hj : j < init.length) :
    ((List.range n).foldl (fun buf k => addFrameAt buf (rows.getD k []) (k * hop))
      init).getD j 0 =
      init.getD j 0 + ∑ k ∈ Finset.range n,
        (if k * hop ≤ j ∧ j < k * hop + (rows.getD k []).length
         then (rows.getD k []).getD (j - k * hop) 0 else 0) := by
  induction n with
  | zero => simp
  | succ m ih =>
    rw [List.range_succ, List.foldl_append, List.foldl_cons, List.foldl_nil,
      addFrameAt_getD _ _ _ _ (by rw [reconstruct_foldl_length]; exact hj),
      ih, Finset.sum_range_succ, add_assoc]

lemma getD_replicate_zero {α : Type} [AddCommMonoid α] (n j : ℕ) :
    (List.replicate n (0 : α)).getD j 0 = 0 := by
  rw [List.getD_eq_getElem?_getD]
  rcases lt_or_ge j n with h | h
  · rw [List.getElem?_eq_getElem (by simpa using h)]
    simp
  · rw [List.getElem?_eq_none (by simpa using h)]
    rfl

lemma getD_row_of_rect {α : Type} (rows : List (List α)) (cols k : ℕ)
    (hrect : ∀ row ∈ rows, row.length = cols) (hk : k < rows.length) :
    (rows.getD k []).length = cols := by
  have h : rows.getD k [] = rows[k] := by
    rw [List.getD_eq_getElem?_getD, List.getElem?_eq_getElem hk]
    rfl
  rw [h]
  exact hrect _ (List.getElem_mem hk)

/-- Core characterization of `reconstruct_from_frames` for a non-empty frame
    set: it succeeds, the output length is `(num_frames − 1)·hopsize + cols`,
    and sample `j` is the sum of the contributions of the frames whose spans
    cover `j`. -/
lemma reconstruct_spec_core {α : Type} [AddCommMonoid α] (frames : NDArray2 α)
    (hopsize : ℕ) (hne : frames.data ≠ []) :
    ∃ output, reconstruct_from_frames frames hopsize = some output ∧
      output.length = (frames.data.length - 1) * hopsize + frames.cols ∧
      ∀ j < output.length,
        output.getD j 0 =
          ∑ k ∈ Finset.range frames.data.length,
            (if k * hopsize ≤ j ∧ j < k * hopsize + (frames.data.getD k []).length
             then (frames.data.getD k []).getD (j - k * hopsize) 0 else 0) := by
  have hnum : 1 ≤ frames.data.length := List.length_pos.mpr hne
  have hcast : ((frames.data.length : ℤ) - 1) * hopsize + frames.cols =
      (((frames.data.length - 1) * hopsize + frames.cols : ℕ) : ℤ) := by
    push_cast [hnum]
    ring
  simp only [reconstruct_from_frames]
  rw [if_neg (by rw [hcast]; exact not_lt.mpr (Int.natCast_nonneg _))]
  refine ⟨_, rfl, ?_, ?_⟩
  · rw [reconstruct_foldl_length, List.length_replicate, hcast, Int.toNat_natCast]
  · intro j hj
    rw [reconstruct_foldl_length] at hj
    rw [reconstruct_foldl_getD _ _ _ _ _ hj, getD_replicate_zero, zero_add]

/-- Claim C5.  For a non-empty rectangular frame set (each of the
    `num_frames` frames has length `frame_size = cols`) and positive
    `hopsize`, `reconstruct_from_frames` succeeds, its output has length
    `(num_frames − 1)·hopsize + frame_size`, and sample `j` is the sum of
    `frames[k][j − k·hopsize]` over exactly those frames `k` whose span
    `[k·hopsize, k·hopsize + frame_size)` contains `j` — overlapping regions
    accumulate, nothing is overwritten or truncated. -/
theorem reconstruct_from_frames_spec (frames : NDArray2 ℝ) (hopsize : ℕ)
    (hne : frames.data ≠ []) (hhop : 0 < hopsize)
    (hrect : ∀ row ∈ frames.data, row.length = frames.cols) :
    ∃ output, reconstruct_from_frames frames hopsize = some output ∧
      output.length = (frames.data.length - 1) * hopsize + frames.cols ∧
      ∀ j < output.length,
        output.getD j 0 =
          ∑ k ∈ Finset.range frames.data.length,
            (if k * hopsize ≤ j ∧ j < k * hopsize + frames.cols
             then (frames.data.getD k []).getD (j - k * hopsize) 0 else 0) := by
  obtain ⟨output, hrec, hlen, hget⟩ := reconstruct_spec_core frames hopsize hne
  refine ⟨output, hrec, hlen, ?_⟩
  intro j hj
  rw [hget j hj]
  refine Finset.sum_congr rfl ?_
  intro k hk
  rw [getD_row_of_rect frames.data frames.cols k hrect (Finset.mem_range.mp hk)]

/-- Concrete frame set for the claim C5 witness: two overlapping length-2
    frames at hop 1. -/
def c5Frames : NDArray2 ℝ := ⟨[[1, 2], [3, 4]], 2⟩

/-- Claim C5 witness: the specification theorem applied to `c5Frames`. -/
theorem reconstruct_from_frames_spec_witness :
    ∃ output, reconstruct_from_frames c5Frames 1 = some output ∧
      output.length = (c5Frames.data.length - 1) * 1 + c5Frames.cols ∧
      ∀ j < output.length,
        output.getD j 0 =
          ∑ k ∈ Finset.range c5Frames.data.length,
            (if k * 1 ≤ j ∧ j < k * 1 + c5Frames.cols
             then (c5Frames.data.getD k []).getD (j - k * 1) 0 else 0) :=
  reconstruct_from_frames_spec c5Frames 1 (by simp [c5Frames]) (by decide)
    (by simp [c5Frames])

/-! ### Zero-propagation lemmas for claim C9 -/

lemma getD_zero_of_all_zero {α : Type} [Zero α] {l : List α} (h : ∀ x ∈ l, x = 0)
    (i : ℕ) : l.getD i 0 = 0 := by
  rcases lt_or_ge i l.length with hi | hi
  · rw [List.getD_eq_getElem?_getD, List.getElem?_eq_getElem hi, Option.getD_some]
    exact h _ (List.getElem_mem hi)
  · rw [List.getD_eq_getElem?_getD, List.getElem?_eq_none (by simpa using hi)]
    rfl

lemma pad_signal_all_zero {α : Type} [Zero α] {s : List α} (fs hop : ℕ) {p : List α}
    (hz : ∀ x ∈ s, x = 0) (h : OLA.pad_signal s fs hop = some p) : ∀ x ∈ p, x = 0 := by
  simp only [OLA.pad_signal] at h
  split at h
  · split at h
    · exact absurd h (by simp)
    · injection h with h
      subst h
      intro x hx
      rcases List.mem_append.mp hx with hx | hx
      · exact hz x hx
      · exact List.eq_of_mem_replicate hx
  · injection h with h
    subst h
    exact hz

lemma pad_signal_prefix {α : Type} [Zero α] {s : List α} (fs hop : ℕ) {p : List α}
    (h : OLA.pad_signal s fs hop = some p) :
    p = s ++ List.replicate (p.length - s.length) 0 := by
  simp only [OLA.pad_signal] at h
  split at h
  · split at h
    · exact absurd h (by simp)
    · injection h with h
      subst h
      rw [List.length_append, List.length_replicate]
      simp
  · injection h with h
    subst h
    simp

lemma ola_split_all_zero {α : Type} [Zero α] {s : List α} {fs hop : ℕ}
    {frames : List (List α)} (hz : ∀ x ∈ s, x = 0)
    (h : OLA.split_into_frames s fs hop = some frames) :
    ∀ f ∈ frames, ∀ x ∈ f, x = 0 := by
  simp only [OLA.split_into_frames] at h
  split at h
  · exact absurd h (by simp)
  · split at h
    next => exact absurd h (by simp)
    next padded heq =>
      split at h
      · exact absurd h (by simp)
      · injection h with h
        subst h
        intro f hf x hx
        rcases List.mem_map.mp hf with ⟨k, _, rfl⟩
        exact pad_signal_all_zero fs hop hz heq x
          (List.mem_of_mem_drop (List.mem_of_mem_take hx))

lemma getD_row_all_zero {α : Type} [Zero α] (rows : List (List α))
    (hz : ∀ row ∈ rows, ∀ x ∈ row, x = 0) (k : ℕ) :
    ∀ x ∈ rows.getD k [], x = 0 := by
  rcases lt_or_ge k rows.length with hk | hk
  · have h : rows.getD k [] = rows[k] := by
      rw [List.getD_eq_getElem?_getD, List.getElem?_eq_getElem hk]
      rfl
    rw [h]
    exact hz _ (List.getElem_mem hk)
  · have h : rows.getD k [] = [] := by
      rw [List.getD_eq_getElem?_getD, List.getElem?_eq_none (by simpa using hk)]
      rfl
    rw [h]
    intro x hx
    cases hx

lemma addFrameAt_all_zero {α : Type} [AddCommMonoid α] {buf frame : List α} (s : ℕ)
    (hb : ∀ x ∈ buf, x = 0) (hf : ∀ x ∈ frame, x = 0) :
    ∀ x ∈ addFrameAt buf frame s, x = 0 := by
  intro x hx
  rcases List.mem_iff_getElem.mp hx with ⟨i, hi, he⟩
  have hib : i < buf.length := by
    have := hi
    rw [addFrameAt_length] at this
    exact this
  have hval : (addFrameAt buf frame s).getD i 0 = x := by
    rw [List.getD_eq_getElem?_getD, List.getElem?_eq_getElem hi, Option.getD_some, he]
  rw [addFrameAt_getD buf frame s i hib] at hval
  rw [← hval, getD_zero_of_all_zero hb, getD_zero_of_all_zero hf]
  split <;> simp

lemma foldl_addFrame_all_zero {α : Type} [AddCommMonoid α] (rows : List (List α))
    (hop : ℕ) (init : List α) (hz : ∀ row ∈ rows, ∀ x ∈ row, x = 0)
    (hinit : ∀ x ∈ init, x = 0) (n : ℕ) :
    ∀ x ∈ (List.range n).foldl
        (fun buf k => addFrameAt buf (rows.getD k []) (k * hop)) init, x = 0 := by
  induction n with
  | zero => simpa using hinit
  | succ m ih =>
    rw [List.range_succ, List.foldl_append, List.foldl_cons, List.foldl_nil]
    exact addFrameAt_all_zero _ ih (getD_row_all_zero rows hz m)

lemma reconstruct_all_zero {α : Type} [AddCommMonoid α] {frames : NDArray2 α}
    {hop : ℕ} {out : List α} (hz : ∀ row ∈ frames.data, ∀ x ∈ row, x = 0)
    (h : reconstruct_from_frames frames hop = some out) : ∀ x ∈ out, x = 0 := by
  simp only [reconstruct_from_frames] at h
  split at h
  · exact absurd h (by simp)
  · injection h with h
    subst h
    exact foldl_addFrame_all_zero frames.data hop _ hz
      (fun x hx => List.eq_of_mem_replicate hx) _

lemma zipWith_mul_all_zero {f w : List ℝ} (hf : ∀ x ∈ f, x = 0) :
    ∀ x ∈ List.zipWith (· * ·) f w, x = 0 := by
  intro x hx
  rcases List.mem_iff_getElem.mp hx with ⟨i, hi, he⟩
  have hif : i < f.length := by
    rw [List.length_zipWith] at hi
    exact lt_of_lt_of_le hi (min_le_left _ _)
  rw [List.getElem_zipWith] at he
  rw [← he, hf _ (List.getElem_mem hif), zero_mul]

/-- Claim C9.  For an all-zero input signal (of length at least `frame_size`)
    and any engine configuration, `OLA.run` cannot divide by zero or produce
    non-finite samples: (1) whenever `run` returns an output, every sample of
    it is exactly `0`; and (2) every entry of the zero-replaced
    overlapped-window gain (`np.where(gain == 0, 1.0, gain)`), by which the
    reconstructed signal is divided, is nonzero — the substitution of `1.0`
    for zero gain entries makes the division branch safe. -/
theorem ola_run_zero_signal_safe (o : OLA) (signal : List ℝ)
    (hlen : o.frame_size ≤ signal.length) (hz : ∀ x ∈ signal, x = 0) :
    (∀ output, OLA.run o signal = some output → ∀ x ∈ output, x = 0) ∧
    (∀ num len gain, OLA.overlapping_windows o num len = some gain →
      ∀ g ∈ np_where_zero_one gain, g ≠ 0) := by
  constructor
  · intro output hrun x hx
    simp only [OLA.run] at hrun
    split at hrun
    · exact absurd hrun (by simp)
    · split at hrun
      next => exact absurd hrun (by simp)
      next aframes hsp =>
        split at hrun
        · exact absurd hrun (by simp)
        · split at hrun
          next => exact absurd hrun (by simp)
          next out0 hrec =>
            split at hrun
            next => exact absurd hrun (by simp)
            next gain hov =>
              split at hrun
              · injection hrun with hrun
                subst hrun
                have hout0 : ∀ y ∈ out0, y = 0 := by
                  refine reconstruct_all_zero ?_ hrec
                  intro row hrow
                  simp only [mkArr] at hrow
                  rcases List.mem_map.mp hrow with ⟨f, hfmem, rfl⟩
                  exact zipWith_mul_all_zero
                    (ola_split_all_zero hz hsp f hfmem)
                rcases List.mem_iff_getElem.mp hx with ⟨i, hi, he⟩
                have hio : i < out0.length := by
                  rw [List.length_zipWith] at hi
                  exact lt_of_lt_of_le hi (min_le_left _ _)
                rw [List.getElem_zipWith] at he
                rw [← he, hout0 _ (List.getElem_mem hio), zero_div]
              · exact absurd hrun (by simp)
  · intro num len gain hg g hgmem
    rcases List.mem_map.mp hgmem with ⟨y, _, rfl⟩
    split
    · exact one_ne_zero
    · assumption

/-- Claim C9 witness: default frame-size-20, hop-10 engine on twenty zero
    samples. -/
theorem ola_run_zero_signal_safe_witness :
    (∀ output,
        OLA.run ⟨⟨20, 1, 10, 10⟩, hann_window 20 false, hann_window 20 false⟩
            (List.replicate 20 0) = some output → ∀ x ∈ output, x = 0) ∧
    (∀ num len gain,
        OLA.overlapping_windows
            ⟨⟨20, 1, 10, 10⟩, hann_window 20 false, hann_window 20 false⟩ num len =
          some gain → ∀ g ∈ np_where_zero_one gain, g ≠ 0) :=
  ola_run_zero_signal_safe ⟨⟨20, 1, 10, 10⟩, hann_window 20 false, hann_window 20 false⟩
    (List.replicate 20 0) (by rw [List.length_replicate])
    (fun x hx => List.eq_of_mem_replicate hx)

/-! ### Padding arithmetic and Hann-window lemmas for claim C4 -/

/-- For `hopsize < frame_size ≤ len(signal)` the padding branch of the plain
    segmenter is correct: it succeeds, appends fewer than `hopsize` zeros, and
    restores divisibility of `len(padded) − frame_size` by `hopsize`. -/
lemma pad_signal_cola {α : Type} [Zero α] (s : List α) (fs hop : ℕ) (hhop : 0 < hop)
    (hlt : hop < fs) (hfs : fs ≤ s.length) :
    ∃ p : List α, OLA.pad_signal s fs hop = some p ∧
      s.length ≤ p.length ∧ fs ≤ p.length ∧ p.length < s.length + hop ∧
      p = s ++ List.replicate (p.length - s.length) 0 ∧
      hop ∣ (p.length - fs) := by
  have hhz : ((hop : ℤ)) ≠ 0 := by exact_mod_cast hhop.ne.symm
  have hhzp : (0 : ℤ) < (hop : ℤ) := by exact_mod_cast hhop
  simp only [OLA.pad_signal]
  split
  next hmod =>
    have hres : OLA.residual (s.length : ℤ) fs hop =
        (s.length : ℤ) - hop * (((s.length : ℤ) - fs) / hop + 1) := by
      unfold OLA.residual
      rw [if_pos hlt]
      rfl
    set D : ℤ := (s.length : ℤ) - fs with hD
    have hmod2 : D % (hop : ℤ) ≠ 0 := hmod
    have hr0 : 0 ≤ D % (hop : ℤ) := Int.emod_nonneg D hhz
    have hrlt : D % (hop : ℤ) < hop := Int.emod_lt_of_pos D hhzp
    have hqr : (hop : ℤ) * (D / (hop : ℤ)) + D % (hop : ℤ) = D :=
      Int.ediv_add_emod D (hop : ℤ)
    have hmul : (hop : ℤ) * (D / (hop : ℤ) + 1) =
        (hop : ℤ) * (D / (hop : ℤ)) + hop := by ring
    have hpadval : (fs : ℤ) - OLA.residual (s.length : ℤ) fs hop =
        (hop : ℤ) - D % hop := by
      rw [hres, hmul]
      linarith [hqr, hD]
    rw [hpadval, if_neg (by omega)]
    have hpadN : ((((hop : ℤ) - D % hop).toNat : ℤ)) = (hop : ℤ) - D % hop :=
      Int.toNat_of_nonneg (by omega)
    refine ⟨_, rfl, ?_, ?_, ?_, ?_, ?_⟩
    · rw [List.length_append]
      omega
    · rw [List.length_append, List.length_replicate]
      omega
    · rw [List.length_append, List.length_replicate]
      omega
    · rw [List.length_append, List.length_replicate]
      congr 2
      omega
    · rw [List.length_append, List.length_replicate]
      refine ⟨(D / (hop : ℤ) + 1).toNat, ?_⟩
      have hq0 : 0 ≤ D / (hop : ℤ) :=
        Int.ediv_nonneg (by linarith [hD]) (le_of_lt hhzp)
      have hqN : (((D / (hop : ℤ) + 1).toNat : ℤ)) = D / hop + 1 :=
        Int.toNat_of_nonneg (by linarith)
      have hsub : fs ≤ s.length + ((hop : ℤ) - D % (hop : ℤ)).toNat := by omega
      zify [hsub]
      push_cast
      rw [hpadN, hqN, hmul]
      linarith [hqr, hD]
  next hmod =>
    refine ⟨s, rfl, le_refl _, hfs, by omega, by simp, ?_⟩
    rw [not_not] at hmod
    have h1 : (hop : ℤ) ∣ ((s.length : ℤ) - fs) := Int.dvd_of_emod_eq_zero hmod
    have hcast : ((s.length : ℤ) - fs) = ((s.length - fs : ℕ) : ℤ) := by omega
    rw [hcast] at h1
    exact_mod_cast h1

lemma getD_range_map {β : Type} (f : ℕ → β) (n k : ℕ) (d : β) (hk : k < n) :
    ((List.range n).map f).getD k d = f k := by
  rw [List.getD_eq_getElem?_getD,
    List.getElem?_eq_getElem (by simpa using hk)]
  simp

lemma headD_range_map {β : Type} (f : ℕ → β) (n : ℕ) (hn : 0 < n) (d : β) :
    ((List.range n).map f).headD d = f 0 := by
  cases n with
  | zero => omega
  | succ m =>
    rw [List.range_succ_eq_map]
    rfl

lemma frame_slice_getD {α : Type} [Zero α] (p : List α) (fs a i : ℕ) (hi : i < fs)
    (ha : a + fs ≤ p.length) :
    ((p.drop a).take fs).getD i 0 = p.getD (a + i) 0 := by
  have h1 : i < ((p.drop a).take fs).length := by
    rw [List.length_take, List.length_drop]
    omega
  have h2 : a + i < p.length := by omega
  rw [List.getD_eq_getElem?_getD, List.getElem?_eq_getElem h1, Option.getD_some,
    List.getElem_take, List.getElem_drop,
    List.getD_eq_getElem?_getD, List.getElem?_eq_getElem h2, Option.getD_some]

lemma frame_slice_length {α : Type} (p : List α) (fs a : ℕ) (ha : a + fs ≤ p.length) :
    ((p.drop a).take fs).length = fs := by
  rw [List.length_take, List.length_drop]
  omega

lemma zipWith_mul_getD (f w : List ℝ) (i : ℕ) (hif : i < f.length) (hiw : i < w.length) :
    (List.zipWith (· * ·) f w).getD i 0 = f.getD i 0 * w.getD i 0 := by
  have h1 : i < (List.zipWith (· * ·) f w).length := by
    rw [List.length_zipWith]
    omega
  rw [List.getD_eq_getElem?_getD, List.getElem?_eq_getElem h1, Option.getD_some,
    List.getElem_zipWith,
    List.getD_eq_getElem?_getD, List.getElem?_eq_getElem hif, Option.getD_some,
    List.getD_eq_getElem?_getD, List.getElem?_eq_getElem hiw, Option.getD_some]

lemma hann_window_length (n : ℕ) (b : Bool) : (hann_window n b).length = n := by
  simp [hann_window]

lemma hann_window_getD (n i : ℕ) (hi : i < n) :
    (hann_window n false).getD i 0 =
      0.5 * (1 - Real.cos ((2 * Real.pi * (i : ℝ)) / (n : ℝ))) := by
  unfold hann_window
  rw [getD_range_map _ _ _ _ hi]
  norm_num

/-- Constant-overlap-add identity of the periodic Hann window at half-frame
    hop: `w[r] + w[r + h] = 1` for the window of length `2h`, exactly over the
    reals. -/
lemma hann_window_cola (h r : ℕ) (hh : 0 < h) (hr : r < h) :
    (hann_window (2 * h) false).getD r 0 + (hann_window (2 * h) false).getD (r + h) 0 = 1 := by
  rw [hann_window_getD _ _ (by omega), hann_window_getD _ _ (by omega)]
  have hhr : ((h : ℝ)) ≠ 0 := by exact_mod_cast hh.ne.symm
  have harg : (2 * Real.pi * ((r + h : ℕ) : ℝ)) / ((2 * h : ℕ) : ℝ) =
      (2 * Real.pi * (r : ℝ)) / ((2 * h : ℕ) : ℝ) + Real.pi := by
    push_cast
    field_simp
    ring
  rw [harg, Real.cos_add_pi]
  ring

lemma getD_append_left {α : Type} (s t : List α) (d : α) (j : ℕ) (hj : j < s.length) :
    (s ++ t).getD j d = s.getD j d := by
  rw [List.getD_eq_getElem?_getD, List.getD_eq_getElem?_getD,
    List.getElem?_append_left hj]

lemma zipWith_getD_of_lt {α : Type} [Zero α] (op : α → α → α) (f w : List α) (i : ℕ)
    (hif : i < f.length) (hiw : i < w.length) :
    (List.zipWith op f w).getD i 0 = op (f.getD i 0) (w.getD i 0) := by
  have h1 : i < (List.zipWith op f w).length := by
    rw [List.length_zipWith]
    omega
  rw [List.getD_eq_getElem?_getD, List.getElem?_eq_getElem h1, Option.getD_some,
    List.getElem_zipWith,
    List.getD_eq_getElem?_getD, List.getElem?_eq_getElem hif, Option.getD_some,
    List.getD_eq_getElem?_getD, List.getElem?_eq_getElem hiw, Option.getD_some]

/-- Evaluation of `OLA.run` for the COLA configuration of claim C4
    (`speed_factor = 1`, `analysis_hopsize = synthesis_hopsize = h`,
    `frame_size = 2h`, default periodic Hann window): the run succeeds and
    sample `j` of the output is the overlap-add
    `Σ_k p[j] · w[j − k·h]` over the frames covering `j` (the COLA branch
    divides by the constant `1.0`, so no normalization alters the sum). -/
lemma ola_run_cola_eval (h : ℕ) (hh : 10 ≤ h) (signal : List ℝ)
    (hlen : 2 * h ≤ signal.length) :
    ∃ p output,
      OLA.pad_signal signal (2 * h) h = some p ∧
      signal.length ≤ p.length ∧ p.length < signal.length + h ∧
      p = signal ++ List.replicate (p.length - signal.length) 0 ∧
      h ∣ (p.length - 2 * h) ∧
      OLA.run ⟨⟨2 * h, 1, h, (h : ℤ)⟩, hann_window (2 * h) false,
          hann_window (2 * h) false⟩ signal = some output ∧
      output.length = p.length ∧
      ∀ j < output.length,
        output.getD j 0 =
          ∑ k ∈ Finset.range ((p.length - 2 * h) / h + 1),
            (if k * h ≤ j ∧ j < k * h + 2 * h
             then p.getD j 0 * (hann_window (2 * h) false).getD (j - k * h) 0
             else 0) := by
  have hh0 : 0 < h := by omega
  obtain ⟨p, hpad, hsl, hfl, hlth, hpre, hdvd⟩ :=
    pad_signal_cola signal (2 * h) h hh0 (by omega) hlen
  obtain ⟨c, hc⟩ := hdvd
  set w : List ℝ := hann_window (2 * h) false with hw
  have hwlen : w.length = 2 * h := hann_window_length _ _
  set num : ℕ := (p.length - 2 * h) / h + 1 with hnum
  have hnumc : num = c + 1 := by rw [hnum, hc, Nat.mul_div_cancel_left _ hh0]
  have hcomm : h * c = c * h := Nat.mul_comm h c
  have hplen : p.length = c * h + 2 * h := by omega
  have hkfit : ∀ k, k < num → k * h + 2 * h ≤ p.length := by
    intro k hk
    have h1 : k ≤ c := by omega
    have h2 : k * h ≤ c * h := Nat.mul_le_mul_right h h1
    omega
  have hrowlen : ∀ k, k < num → ((p.drop (k * h)).take (2 * h)).length = 2 * h :=
    fun k hk => frame_slice_length p (2 * h) (k * h) (hkfit k hk)
  have hframes : OLA.split_into_frames signal (2 * h) h =
      some ((List.range num).map fun k => (p.drop (k * h)).take (2 * h)) := by
    unfold OLA.split_into_frames
    rw [if_neg (show ¬ h = 0 by omega), hpad]
    dsimp only
    rw [if_neg (by push_neg; exact ⟨by omega, by omega⟩)]
  set rows : List (List ℝ) :=
    (List.range num).map (fun k => List.zipWith (· * ·) ((p.drop (k * h)).take (2 * h)) w)
    with hrows
  have hmapmap :
      (((List.range num).map fun k => (p.drop (k * h)).take (2 * h)).map
        fun f => List.zipWith (· * ·) f w) = rows := by
    rw [hrows, List.map_map]
    rfl
  have hrowsne : rows ≠ [] := by
    rw [hrows]
    simp only [ne_eq, List.map_eq_nil_iff, List.range_eq_nil]
    omega
  have hrowslen : rows.length = num := by
    rw [hrows, List.length_map, List.length_range]
  have hrowgetD : ∀ k, k < num →
      rows.getD k [] = List.zipWith (· * ·) ((p.drop (k * h)).take (2 * h)) w := by
    intro k hk
    rw [hrows, getD_range_map _ _ _ _ hk]
  have hrowgetlen : ∀ k, k < num → (rows.getD k []).length = 2 * h := by
    intro k hk
    rw [hrowgetD k hk, List.length_zipWith, hrowlen k hk, hwlen, min_self]
  have hcols : (mkArr rows).cols = 2 * h := by
    simp only [mkArr, hrows]
    rw [headD_range_map _ _ (by omega) _, List.length_zipWith,
      frame_slice_length p (2 * h) (0 * h) (hkfit 0 (by omega)), hwlen, min_self]
  obtain ⟨out0, hrec, hlen0, hget0⟩ := reconstruct_spec_core (mkArr rows) h hrowsne
  have hdata : (mkArr rows).data = rows := rfl
  have hout0len : out0.length = p.length := by
    rw [hlen0, hdata, hrowslen, hcols, hnumc, Nat.add_sub_cancel]
    omega
  have hget1 : ∀ j, j < out0.length →
      out0.getD j 0 =
        ∑ k ∈ Finset.range num,
          (if k * h ≤ j ∧ j < k * h + 2 * h
           then p.getD j 0 * w.getD (j - k * h) 0 else 0) := by
    intro j hj
    rw [hget0 j hj, hdata, hrowslen]
    refine Finset.sum_congr rfl ?_
    intro k hk
    have hkn : k < num := Finset.mem_range.mp hk
    rw [hrowgetlen k hkn]
    by_cases hcond : k * h ≤ j ∧ j < k * h + 2 * h
    · rw [if_pos hcond, if_pos hcond, hrowgetD k hkn,
        zipWith_getD_of_lt _ _ _ _ (by rw [hrowlen k hkn]; omega) (by omega),
        frame_slice_getD p (2 * h) (k * h) (j - k * h) (by omega) (hkfit k hkn)]
      congr 2
      omega
    · rw [if_neg hcond, if_neg hcond]
  -- assemble the run
  have hnp : np_where_zero_one (List.replicate out0.length (1 : ℝ)) =
      List.replicate out0.length 1 := by
    unfold np_where_zero_one
    rw [List.map_replicate]
    norm_num
  have hall : (((List.range num).map fun k => (p.drop (k * h)).take (2 * h)).all
      fun f => decide (f.length = w.length)) = true := by
    rw [List.all_eq_true]
    intro f hf
    rcases List.mem_map.mp hf with ⟨k, hkmem, rfl⟩
    simp only [List.mem_range] at hkmem
    rw [decide_eq_true_eq, hrowlen k hkmem, hwlen]
  have hrun : OLA.run ⟨⟨2 * h, 1, h, (h : ℤ)⟩, w, w⟩ signal =
      some (List.zipWith (· / ·) out0 (List.replicate out0.length 1)) := by
    unfold OLA.run
    rw [if_neg (by simp; omega)]
    have htn : ((h : ℤ)).toNat = h := Int.toNat_natCast h
    rw [show (⟨⟨2 * h, 1, h, (h : ℤ)⟩, w, w⟩ : OLA).analysis_hopsize.toNat = h from htn,
      hframes]
    simp only []
    rw [if_neg (by rw [hall]; simp), hmapmap, hrec]
    simp only [OLA.overlapping_windows]
    rw [if_pos (by omega : (h : ℕ) = 2 * h / 2)]
    simp only []
    rw [hnp, if_pos (List.length_replicate _ _)]
  refine ⟨p, List.zipWith (· / ·) out0 (List.replicate out0.length 1),
    hpad, hsl, hlth, hpre, ⟨c, hc⟩, hrun, ?_, ?_⟩
  · rw [List.length_zipWith, List.length_replicate, min_self, hout0len]
  · intro j hj
    rw [List.length_zipWith, List.length_replicate, min_self] at hj
    rw [zipWith_getD_of_lt _ _ _ _ hj (by rw [List.length_replicate]; exact hj)]
    have hone : (List.replicate out0.length (1 : ℝ)).getD j 0 = 1 := by
      rw [List.getD_eq_getElem?_getD,
        List.getElem?_eq_getElem (by rw [List.length_replicate]; exact hj)]
      simp
    rw [hone, div_one, hget1 j hj]

/-- Claim C4 counterexample.  At `speed_factor = 1`, `frame_size = 20`,
    `synthesis_hopsize = analysis_hopsize = 10 = frame_size/2` on the all-ones
    signal of length 20 (no padding occurs), `OLA.run` does NOT reproduce the
    input outside the trailing pad region: sample 0 of the output is
    `1 · w[0] = 0` (the periodic Hann window vanishes at index 0) while the
    input sample is `1` — the first `synthesis_hopsize` samples are covered by
    a single window and are attenuated, exactly over the reals. -/
theorem ola_run_identity_fails_at_head :
    ∃ output,
      OLA.run ⟨⟨2 * 10, 1, 10, ((10 : ℕ) : ℤ)⟩, hann_window (2 * 10) false,
          hann_window (2 * 10) false⟩ (List.replicate 20 1) = some output ∧
      0 < output.length ∧ output.getD 0 0 = 0 ∧
      (List.replicate 20 (1 : ℝ)).getD 0 0 = 1 := by
  obtain ⟨p, output, hpad, hsl, hlth, hpre, hdvd, hrun, holen, hfor⟩ :=
    ola_run_cola_eval 10 (by omega) (List.replicate 20 1)
      (by rw [List.length_replicate])
  have hslen : (List.replicate 20 (1 : ℝ)).length = 20 := List.length_replicate _ _
  have hplen : p.length = 20 := by
    obtain ⟨c, hc⟩ := hdvd
    omega
  have houtlen : output.length = 20 := by omega
  refine ⟨output, hrun, by omega, ?_, ?_⟩
  · rw [hfor 0 (by omega), show (p.length - 2 * 10) / 10 + 1 = 1 by omega,
      Finset.sum_range_one, if_pos ⟨by omega, by omega⟩]
    have hwin : (hann_window (2 * 10) false).getD (0 - 0 * 10) 0 = 0 := by
      rw [show (0 : ℕ) - 0 * 10 = 0 from rfl, hann_window_getD (2 * 10) 0 (by omega)]
      norm_num [Real.cos_zero]
    rw [hwin, mul_zero]
  · rw [List.getD_eq_getElem?_getD,
      List.getElem?_eq_getElem (by rw [hslen]; omega)]
    simp

/-- Claim C4 as amended.  With `speed_factor = 1` and
    `synthesis_hopsize = analysis_hopsize = h = frame_size/2` (the COLA hop,
    periodic Hann window, valid configuration `10 ≤ h`), `OLA.run` reproduces
    the (zero-padded) input exactly over the reals on the interior samples —
    every `j` with `h ≤ j` and `j + h < len(output)`, i.e. away from BOTH the
    leading warm-up region (first `h` samples, which the counterexample shows
    are attenuated) and the trailing region; on interior indices inside the
    original signal the output equals the input sample. -/
theorem ola_run_identity_interior (h : ℕ) (hh : 10 ≤ h) (signal : List ℝ)
    (hlen : 2 * h ≤ signal.length) :
    ∃ p output,
      OLA.pad_signal signal (2 * h) h = some p ∧
      p = signal ++ List.replicate (p.length - signal.length) 0 ∧
      OLA.run ⟨⟨2 * h, 1, h, (h : ℤ)⟩, hann_window (2 * h) false,
          hann_window (2 * h) false⟩ signal = some output ∧
      output.length = p.length ∧
      (∀ j, h ≤ j → j + h < output.length → output.getD j 0 = p.getD j 0) ∧
      (∀ j, h ≤ j → j + h < output.length → j < signal.length →
        output.getD j 0 = signal.getD j 0) := by
  obtain ⟨p, output, hpad, hsl, hlth, hpre, hdvd, hrun, holen, hfor⟩ :=
    ola_run_cola_eval h hh signal hlen
  obtain ⟨c, hc⟩ := hdvd
  have hh0 : 0 < h := by omega
  have hcomm : h * c = c * h := Nat.mul_comm h c
  have hplen : p.length = c * h + 2 * h := by omega
  have hnumc : (p.length - 2 * h) / h + 1 = c + 1 := by
    rw [hc, Nat.mul_div_cancel_left _ hh0]
  have hinterior : ∀ j, h ≤ j → j + h < output.length →
      output.getD j 0 = p.getD j 0 := by
    intro j hj1 hj2
    have hjlt : j < output.length := by omega
    rw [hfor j hjlt, hnumc]
    have hdm : h * (j / h) + j % h = j := Nat.div_add_mod j h
    have hrlt : j % h < h := Nat.mod_lt j hh0
    have hq1 : 1 ≤ j / h := (Nat.one_le_div_iff hh0).mpr hj1
    obtain ⟨q, hq⟩ : ∃ q, j / h = q + 1 :=
      ⟨j / h - 1, (Nat.succ_pred_eq_of_pos hq1).symm⟩
    have hsucc : (q + 1) * h = q * h + h := Nat.succ_mul q h
    have hmulc : h * (q + 1) = (q + 1) * h := Nat.mul_comm h (q + 1)
    have hjq : j = (q + 1) * h + j % h := by
      rw [hq] at hdm
      omega
    have hjc : j < (c + 1) * h := by
      have hsc : (c + 1) * h = c * h + h := Nat.succ_mul c h
      omega
    have hqlt : j / h < c + 1 := (Nat.div_lt_iff_lt_mul hh0).mpr hjc
    have hzero : ∀ k ∈ Finset.range (c + 1), k ≠ q ∧ k ≠ q + 1 →
        (if k * h ≤ j ∧ j < k * h + 2 * h
         then p.getD j 0 * (hann_window (2 * h) false).getD (j - k * h) 0
         else 0) = 0 := by
      intro k hk hkne
      obtain ⟨hk1, hk2⟩ := hkne
      rw [if_neg]
      rintro ⟨hA, hB⟩
      have hkq : k ≤ j / h := (Nat.le_div_iff_mul_le hh0).mpr hA
      have hjk2 : j < (k + 2) * h := by
        have : (k + 2) * h = k * h + 2 * h := by ring
        omega
      have hqk : j / h < k + 2 := (Nat.div_lt_iff_lt_mul hh0).mpr hjk2
      omega
    rw [Finset.sum_eq_add_of_mem q (q + 1)
      (Finset.mem_range.mpr (by omega)) (Finset.mem_range.mpr (by omega))
      (by omega) hzero]
    rw [if_pos ⟨by omega, by omega⟩, if_pos ⟨by omega, by omega⟩,
      show j - q * h = j % h + h by omega,
      show j - (q + 1) * h = j % h by omega,
      show p.getD j 0 * (hann_window (2 * h) false).getD (j % h + h) 0 +
          p.getD j 0 * (hann_window (2 * h) false).getD (j % h) 0 =
          p.getD j 0 * ((hann_window (2 * h) false).getD (j % h) 0 +
            (hann_window (2 * h) false).getD (j % h + h) 0) from by ring,
      hann_window_cola h (j % h) hh0 hrlt, mul_one]
  refine ⟨p, output, hpad, hpre, hrun, holen, hinterior, ?_⟩
  intro j hj1 hj2 hj3
  rw [hinterior j hj1 hj2, hpre, getD_append_left _ _ _ _ hj3]

/-- Claim C4 amended witness: `h = 10` on twenty zero samples. -/
theorem ola_run_identity_interior_witness :
    ∃ p output,
      OLA.pad_signal (List.replicate 20 (0 : ℝ)) (2 * 10) 10 = some p ∧
      p = List.replicate 20 (0 : ℝ) ++
          List.replicate (p.length - (List.replicate 20 (0 : ℝ)).length) 0 ∧
      OLA.run ⟨⟨2 * 10, 1, 10, ((10 : ℕ) : ℤ)⟩, hann_window (2 * 10) false,
          hann_window (2 * 10) false⟩ (List.replicate 20 (0 : ℝ)) = some output ∧
      output.length = p.length ∧
      (∀ j, 10 ≤ j → j + 10 < output.length → output.getD j 0 = p.getD j 0) ∧
      (∀ j, 10 ≤ j → j + 10 < output.length →
        j < (List.replicate 20 (0 : ℝ)).length →
        output.getD j 0 = (List.replicate 20 (0 : ℝ)).getD j 0) :=
  ola_run_identity_interior 10 (by omega) (List.replicate 20 0)
    (by rw [List.length_replicate])

end PyAudioMod
